import Mathlib

/-!
# Verification of the VTT transcript-capture pipeline

Shallow embedding of the transcript-extraction repository:
* `parse_vtt` (src/transcripts.py lines 13–33; the same routine is used
  by src/app/scraper.py): the VTT normalizer, embedded over `List Char`;
* the response-capture slot (the `vtt_future` and the `handle_response`
  callback of both variants);
* the platform dispatcher and the per-URL control flow of
  `process_url` (src/transcripts.py) and `fetch_transcript_for_url`
  (src/app/scraper.py), embedded as event traces parameterized by an
  environment describing which external steps fail;
* the timeout constants appearing at the `goto` / `asyncio.wait_for`
  call sites.

Python's `str` is embedded as `List Char` (with a `String` wrapper for
whole-pipeline statements).  The whitespace predicate models the ASCII
part of Python's whitespace classes (`str.strip`, regex `\s`); all the
inputs in the claims are ASCII.
-/

namespace TranscriptExtraction

/-- ASCII fragment of Python's whitespace class (used both by
`str.strip()` and by the regex class `\s`). -/
def pyIsSpace (c : Char) : Bool :=
  c = ' ' || c = '\t' || c = '\n' || c = '\r' || c = '\x0b' || c = '\x0c'

/-- Python `str.strip()`: drop whitespace from both ends. -/
def pyStrip (l : List Char) : List Char :=
  ((l.dropWhile pyIsSpace).reverse.dropWhile pyIsSpace).reverse

/-- Python `str.split('\n')`: split on every newline character.
`splitNl [] = [[]]`, matching `"".split('\n') == [""]`. -/
def splitNl : List Char → List (List Char)
  | [] => [[]]
  | c :: rest =>
    if c = '\n' then [] :: splitNl rest
    else
      match splitNl rest with
      | [] => [[c]]
      | l :: ls => (c :: l) :: ls

/-- Python `'\n'.join(lines)`. -/
def joinNl : List (List Char) → List Char
  | [] => []
  | [l] => l
  | l :: ls => l ++ '\n' :: joinNl ls

/-- `startsWithSeq hay needle`: `hay` begins with `needle`. -/
def startsWithSeq : List Char → List Char → Bool
  | _, [] => true
  | [], _ :: _ => false
  | h :: hs, n :: ns => (h = n) && startsWithSeq hs ns

/-- Python's substring test `needle in hay`. -/
def containsSeq (hay needle : List Char) : Bool :=
  if startsWithSeq hay needle then true
  else
    match hay with
    | [] => false
    | _ :: t => containsSeq t needle

/-- Python `str.isdigit()` (ASCII digits): nonempty and all digits. -/
def pyIsDigitStr (l : List Char) : Bool :=
  !l.isEmpty && l.all Char.isDigit

/-- Embedding of `re.sub(r'>>\s*', '', line)`: scan left to right; each
occurrence of two consecutive `>` characters is deleted together with the
(greedy) run of whitespace that follows it.  The flag records whether the
scanner is currently inside the `\s*` part of a match. -/
def subAnn : Bool → List Char → List Char
  | _, [] => []
  | skipping, c :: rest =>
    if skipping && pyIsSpace c then subAnn true rest
    else
      match rest with
      | '>' :: rest2 =>
        if c = '>' then subAnn true rest2 else c :: subAnn false ('>' :: rest2)
      | [] => [c]
      | d :: rest2 => c :: subAnn false (d :: rest2)

/-- The header marker tested by `"WEBVTT" in line`. -/
def webvttMark : List Char := "WEBVTT".data

/-- The timing-line marker tested by `"-->" in line`. -/
def arrowMark : List Char := "-->".data

/-- The two-character announcer marker `>>` of the cleaning regex. -/
def gtgtMark : List Char := ['>', '>']

/-- The guard of the `continue` in `parse_vtt`'s loop:
`not line.strip() or "WEBVTT" in line or "-->" in line or
line.strip().isdigit()`. -/
def discardLine (line : List Char) : Bool :=
  (pyStrip line).isEmpty || containsSeq line webvttMark ||
    containsSeq line arrowMark || pyIsDigitStr (pyStrip line)

/-- `cleaned_line = re.sub(r'>>\s*', '', line).strip()`. -/
def cleanLine (line : List Char) : List Char :=
  pyStrip (subAnn false line)

/-- The loop of `parse_vtt`.  Membership in the Python `set`
`seen_lines` is modeled by membership in an accumulated list (the set is
only ever queried for membership, so the representation is
interchangeable). -/
def parseVttLines : List (List Char) → List (List Char) → List (List Char)
  | [], _ => []
  | line :: rest, seen =>
    if discardLine line then parseVttLines rest seen
    else
      let c := cleanLine line
      if !c.isEmpty && !seen.contains c then c :: parseVttLines rest (c :: seen)
      else parseVttLines rest seen

/-- The list of output lines of `parse_vtt` on content `s`. -/
def outLines (s : String) : List (List Char) :=
  parseVttLines (splitNl (pyStrip s.data)) []

/-- `parse_vtt` (src/transcripts.py lines 13–33):
`lines = vtt_content.strip().split('\n')`, the filter/clean/dedup loop,
and `"\n".join(transcript_lines)`. -/
def parse_vtt (vtt_content : String) : String :=
  String.mk (joinNl (outLines vtt_content))

/-- Modelled from the spec: first-occurrence deduplication — "a cleaned
line equal to one seen earlier is dropped ... output retains only the
first occurrence of each distinct line, in original order". -/
def specDedupKeepFirst : List (List Char) → List (List Char)
  | [] => []
  | x :: xs => x :: specDedupKeepFirst (xs.filter (fun y => y != x))
termination_by l => l.length
decreasing_by
  simpa using Nat.lt_succ_of_le (List.length_filter_le _ _)

/-- The cleaned forms of the lines that survive the discard step and
whose cleaned form is non-empty (the `if cleaned_line` guard). -/
def keptCleanLines (lines : List (List Char)) : List (List Char) :=
  ((lines.filter (fun l => !discardLine l)).map cleanLine).filter
    (fun c => !c.isEmpty)

/-- Modelled from the claim text of C3: strip a leading announcer marker
consisting of one or more `>` characters followed by optional whitespace,
trim surrounding whitespace, and leave the interior of the line
unchanged. -/
def specCleanLeadingMarker (l : List Char) : List Char :=
  if l.head? = some '>' then
    pyStrip ((l.dropWhile (fun c => c = '>')).dropWhile pyIsSpace)
  else pyStrip l

/-! ## Capture slot (the `vtt_future` and `handle_response` callback)

`handle_response` in both variants runs
`if ".vtt" in response.url and not vtt_future.done(): ...` and then fills
the future with the response body (`set_result`) or, when reading the
body raises, with that failure (`set_exception`).  The future is a
single-assignment cell, modeled as `Option` over `Except`; each callback
invocation is modeled as one atomic step, matching the claims' setting of
responses arriving one after another. -/

/-- A network response: its URL and the result of reading its body
(`Except.error` models `await response.text()` raising). -/
structure Resp where
  url : List Char
  body : Except (List Char) (List Char)

/-- The subtitle-file marker tested by `".vtt" in response.url`. -/
def vttMark : List Char := ".vtt".data

/-- The callback's guard on one response. -/
def respMatches (r : Resp) : Bool := containsSeq r.url vttMark

/-- One invocation of the `handle_response` callback on the current state
of `vtt_future` (src/transcripts.py lines 79–89, src/app/scraper.py
lines 98–105). -/
def handle_response (slot : Option (Except (List Char) (List Char)))
    (r : Resp) : Option (Except (List Char) (List Char)) :=
  if respMatches r && slot.isNone then some r.body else slot

/-- The slot state after a sequence of responses has arrived. -/
def runResponses (slot : Option (Except (List Char) (List Char)))
    (rs : List Resp) : Option (Except (List Char) (List Char)) :=
  rs.foldl handle_response slot

/-! ## Platform dispatcher and per-URL control flow

The control flow of `process_url` (src/transcripts.py lines 75–127) and
`fetch_transcript_for_url` (src/app/scraper.py lines 94–117) is embedded
as the sequence of externally visible steps it performs.  Outcomes of the
external world (whether `page.goto` raises, whether the platform
handler's UI sequence raises, and how the capture wait ends) are inputs,
given by an `Env`; exception propagation and the `finally` block become
the shape of the produced trace. -/

/-- The platform classification made by the URL dispatcher of
`process_url`. -/
inductive Platform
  | granicus
  | viebit
  | unknown
deriving DecidableEq

/-- Dispatcher marker `"granicus.com"`. -/
def granicusMark : List Char := "granicus.com".data

/-- Dispatcher marker `"viebit.com"` (src/transcripts.py). -/
def viebitMark : List Char := "viebit.com".data

/-- Dispatcher marker `"vimeo.com"` (src/app/scraper.py). -/
def vimeoMark : List Char := "vimeo.com".data

/-- The URL dispatcher of `process_url` (src/transcripts.py lines
96–103): `if "granicus.com" in url ... elif "viebit.com" in url ...
else` fail. -/
def dispatch (url : List Char) : Platform :=
  if containsSeq url granicusMark then .granicus
  else if containsSeq url viebitMark then .viebit
  else .unknown

/-- Externally visible steps of processing one URL. -/
inductive Ev
  | launchBrowser
  | newPage
  | registerListener
  | navigate
  | granicusSequence
  | viebitSequence
  | vimeoSequence
  | unknownPlatformMessage
  | captureWait
  | saveTranscript
  | returnTranscript
  | closeBrowser
deriving DecidableEq

/-- How the wait on the capture slot ends. -/
inductive CapOutcome
  | success
  | timeout
  | readFailure
deriving DecidableEq

/-- Outcomes of the external steps of one URL's processing. -/
structure Env where
  gotoOk : Bool
  handlerOk : Bool
  cap : CapOutcome
deriving DecidableEq

/-- `vtt_content = await asyncio.wait_for(vtt_future, timeout=20)` and,
in `process_url`, the subsequent save; a timeout or a stored read
failure raises, skipping the rest of the `try` body. -/
def waitEvents (env : Env) : List Ev :=
  Ev.captureWait ::
    (match env.cap with
     | .success => [Ev.saveTranscript]
     | _ => [])

/-- Trace of `process_url` (src/transcripts.py lines 75–127).  A raising
`page.goto` or handler is caught by the `except` clauses; the unknown-
platform branch closes the browser and returns from inside `try`; the
`finally` block closes the browser on every path. -/
def processUrlEvents (env : Env) (url : List Char) : List Ev :=
  [Ev.launchBrowser, Ev.newPage, Ev.registerListener] ++
    (if !env.gotoOk then [Ev.navigate]
     else
       [Ev.navigate] ++
         (match dispatch url with
          | .granicus =>
            if env.handlerOk then Ev.granicusSequence :: waitEvents env
            else [Ev.granicusSequence]
          | .viebit =>
            if env.handlerOk then Ev.viebitSequence :: waitEvents env
            else [Ev.viebitSequence]
          | .unknown => [Ev.unknownPlatformMessage, Ev.closeBrowser])) ++
    [Ev.closeBrowser]

/-- `asyncio.wait_for(vtt_future, timeout=20)` in
`fetch_transcript_for_url`, followed by `return parse_vtt(vtt_content)`
on success; timeout and read failure raise out through the `finally`. -/
def fetchWaitEvents (env : Env) : List Ev :=
  Ev.captureWait ::
    (match env.cap with
     | .success => [Ev.returnTranscript]
     | _ => [])

/-- Trace of `fetch_transcript_for_url` (src/app/scraper.py lines
94–117).  Its dispatcher has branches only for `granicus.com` and
`vimeo.com` and no `else`: a URL matching neither substring falls
through directly to the capture wait.  There is no `except`: errors
propagate to the caller, through the `finally` that closes the
browser. -/
def fetchTranscriptEvents (env : Env) (url : List Char) : List Ev :=
  [Ev.launchBrowser, Ev.newPage, Ev.registerListener] ++
    (if !env.gotoOk then [Ev.navigate]
     else
       [Ev.navigate] ++
         (if containsSeq url granicusMark then
            if env.handlerOk then Ev.granicusSequence :: fetchWaitEvents env
            else [Ev.granicusSequence]
          else if containsSeq url vimeoMark then
            if env.handlerOk then Ev.vimeoSequence :: fetchWaitEvents env
            else [Ev.vimeoSequence]
          else fetchWaitEvents env)) ++
    [Ev.closeBrowser]

/-! ## Timeout constants at the call sites -/

/-- `page.goto(url, wait_until="load", timeout=45000)` in
`process_url` (milliseconds). -/
def transcriptsGotoTimeoutMs : Nat := 45000

/-- `asyncio.wait_for(vtt_future, timeout=20)` in `process_url`
(seconds). -/
def transcriptsCaptureWaitSeconds : Nat := 20

/-- `page.goto(url, wait_until="load", timeout=3500)` in
`fetch_transcript_for_url` (milliseconds). -/
def scraperGotoTimeoutMs : Nat := 3500

/-- `asyncio.wait_for(vtt_future, timeout=20)` in
`fetch_transcript_for_url` (seconds). -/
def scraperCaptureWaitSeconds : Nat := 20

/-! ## Substring lemmas -/

theorem startsWithSeq_iff (h n : List Char) :
    startsWithSeq h n = true ↔ ∃ s, h = n ++ s := by
  induction n generalizing h with
  | nil => simp [startsWithSeq]
  | cons c n ih =>
    cases h with
    | nil => simp [startsWithSeq]
    | cons d h =>
      simp only [startsWithSeq, Bool.and_eq_true, decide_eq_true_eq, ih,
        List.cons_append, List.cons.injEq]
      constructor
      · rintro ⟨rfl, s, rfl⟩; exact ⟨s, rfl, rfl⟩
      · rintro ⟨s, rfl, rfl⟩; exact ⟨rfl, s, rfl⟩

theorem containsSeq_cons (c : Char) (t n : List Char) :
    containsSeq (c :: t) n = (startsWithSeq (c :: t) n || containsSeq t n) := by
  rw [containsSeq]
  by_cases h : startsWithSeq (c :: t) n = true <;> simp [h]

theorem containsSeq_iff (h n : List Char) :
    containsSeq h n = true ↔ ∃ p s, h = p ++ n ++ s := by
  induction h with
  | nil =>
    rw [containsSeq]
    cases n with
    | nil => simp [startsWithSeq]
    | cons c t => simp [startsWithSeq]
  | cons c t ih =>
    rw [containsSeq_cons]
    simp only [Bool.or_eq_true, startsWithSeq_iff, ih]
    constructor
    · rintro (⟨s, hs⟩ | ⟨p, s, hs⟩)
      · exact ⟨[], s, by simpa using hs⟩
      · exact ⟨c :: p, s, by simp [hs]⟩
    · rintro ⟨p, s, hp⟩
      cases p with
      | nil => exact Or.inl ⟨s, by simpa using hp⟩
      | cons d p =>
        simp only [List.cons_append, List.cons.injEq] at hp
        exact Or.inr ⟨p, s, hp.2⟩

theorem containsSeq_of_middle (u m v n : List Char)
    (h : containsSeq m n = true) :
    containsSeq (u ++ m ++ v) n = true := by
  rw [containsSeq_iff] at h ⊢
  obtain ⟨p, s, rfl⟩ := h
  exact ⟨u ++ p, s ++ v, by simp⟩

/-! ## dropWhile / pyStrip lemmas -/

theorem head?_dropWhile (p : Char → Bool) (l : List Char) (c : Char)
    (h : (l.dropWhile p).head? = some c) : p c = false := by
  induction l with
  | nil => simp [List.dropWhile] at h
  | cons d t ih =>
    rw [List.dropWhile_cons] at h
    by_cases hd : p d = true
    · rw [if_pos hd] at h; exact ih h
    · rw [if_neg hd] at h
      simp only [List.head?_cons, Option.some.injEq] at h
      subst h; simpa using hd

theorem dropWhile_idem (p : Char → Bool) (l : List Char) :
    (l.dropWhile p).dropWhile p = l.dropWhile p := by
  cases hd : l.dropWhile p with
  | nil => simp
  | cons c t =>
    have : p c = false := head?_dropWhile p l c (by rw [hd]; rfl)
    rw [List.dropWhile_cons, this]; simp

theorem getLast?_dropWhile (p : Char → Bool) (l : List Char)
    (h : l.dropWhile p ≠ []) : (l.dropWhile p).getLast? = l.getLast? := by
  induction l with
  | nil => simp at h
  | cons d t ih =>
    rw [List.dropWhile_cons]
    by_cases hd : p d = true
    · rw [if_pos hd]
      rw [List.dropWhile_cons, if_pos hd] at h
      have ht : t ≠ [] := by
        intro he; rw [he] at h; simp [List.dropWhile] at h
      cases t with
      | nil => exact absurd rfl ht
      | cons x t' => rw [List.getLast?_cons_cons]; exact ih h
    · rw [if_neg hd]

theorem pyStrip_decomp (l : List Char) :
    ∃ u v, l = u ++ pyStrip l ++ v := by
  refine ⟨l.takeWhile pyIsSpace,
    (((l.dropWhile pyIsSpace).reverse.takeWhile pyIsSpace)).reverse, ?_⟩
  conv_lhs => rw [← List.takeWhile_append_dropWhile (p := pyIsSpace) (l := l)]
  rw [List.append_assoc]
  congr 1
  conv_lhs =>
    rw [← List.reverse_reverse (l.dropWhile pyIsSpace),
      ← List.takeWhile_append_dropWhile (p := pyIsSpace)
        (l := (l.dropWhile pyIsSpace).reverse)]
  rw [List.reverse_append]
  rfl

theorem mem_pyStrip (l : List Char) (c : Char) (h : c ∈ pyStrip l) :
    c ∈ l := by
  obtain ⟨u, v, hl⟩ := pyStrip_decomp l
  rw [hl]; simp [h]

theorem pyStrip_head (l : List Char) (c : Char)
    (h : (pyStrip l).head? = some c) : pyIsSpace c = false := by
  unfold pyStrip at h
  rw [List.head?_reverse] at h
  have hne : (l.dropWhile pyIsSpace).reverse.dropWhile pyIsSpace ≠ [] := by
    intro he; rw [he] at h; simp at h
  rw [getLast?_dropWhile _ _ hne, List.getLast?_reverse] at h
  exact head?_dropWhile _ _ _ h

theorem pyStrip_last (l : List Char) (c : Char)
    (h : (pyStrip l).getLast? = some c) : pyIsSpace c = false := by
  unfold pyStrip at h
  rw [List.getLast?_reverse] at h
  exact head?_dropWhile _ _ _ h

theorem pyStrip_fixed (l : List Char)
    (h1 : ∀ c, l.head? = some c → pyIsSpace c = false)
    (h2 : ∀ c, l.getLast? = some c → pyIsSpace c = false) :
    pyStrip l = l := by
  unfold pyStrip
  have hd : l.dropWhile pyIsSpace = l := by
    cases l with
    | nil => rfl
    | cons c t => rw [List.dropWhile_cons, h1 c rfl]; simp
  rw [hd]
  have hr : l.reverse.dropWhile pyIsSpace = l.reverse := by
    cases hrv : l.reverse with
    | nil => rfl
    | cons c t =>
      have : l.getLast? = some c := by
        rw [← List.head?_reverse, hrv]; rfl
      rw [List.dropWhile_cons, h2 c this]; simp [hrv]
  rw [hr, List.reverse_reverse]

theorem pyStrip_idem (l : List Char) : pyStrip (pyStrip l) = pyStrip l :=
  pyStrip_fixed _ (pyStrip_head l) (pyStrip_last l)

theorem pyStrip_eq_nil_iff (l : List Char) :
    pyStrip l = [] ↔ ∀ c ∈ l, pyIsSpace c = true := by
  constructor
  · intro h c hc
    have hc2 : c ∈ l.takeWhile pyIsSpace ++ l.dropWhile pyIsSpace := by
      rw [List.takeWhile_append_dropWhile]; exact hc
    rw [List.mem_append] at hc2
    rcases hc2 with hc | hc
    · exact List.mem_takeWhile_imp hc
    · unfold pyStrip at h
      rw [List.reverse_eq_nil_iff, List.dropWhile_eq_nil_iff] at h
      exact h c (by simpa using hc)
  · intro h
    unfold pyStrip
    have : l.dropWhile pyIsSpace = [] := List.dropWhile_eq_nil_iff.mpr h
    rw [this]; rfl

/-! ## subAnn lemmas -/

theorem subAnn_cons_space (skipping : Bool) (c : Char) (rest : List Char)
    (h : (skipping && pyIsSpace c) = true) :
    subAnn skipping (c :: rest) = subAnn true rest := by
  rw [subAnn.eq_def]; simp [h]

theorem subAnn_pair (skipping : Bool) (rest2 : List Char)
    (h : ¬(skipping && pyIsSpace '>') = true) :
    subAnn skipping ('>' :: '>' :: rest2) = subAnn true rest2 := by
  rw [subAnn.eq_def]; simp [h]

theorem subAnn_cons_gt (skipping : Bool) (c : Char) (rest2 : List Char)
    (h1 : ¬(skipping && pyIsSpace c) = true) (h2 : ¬c = '>') :
    subAnn skipping (c :: '>' :: rest2) = c :: subAnn false ('>' :: rest2) := by
  rw [subAnn.eq_def]; simp [h1, h2]

theorem subAnn_single (skipping : Bool) (c : Char)
    (h : ¬(skipping && pyIsSpace c) = true) :
    subAnn skipping [c] = [c] := by
  rw [subAnn.eq_def]; simp [h]

theorem subAnn_cons_other (skipping : Bool) (c d : Char) (rest2 : List Char)
    (h1 : ¬(skipping && pyIsSpace c) = true) (h2 : ¬d = '>') :
    subAnn skipping (c :: d :: rest2) = c :: subAnn false (d :: rest2) := by
  rw [subAnn.eq_def]
  simp only [h1, if_false]
  match d, rest2, h2 with
  | d, rest2, h2 =>
    cases rest2 <;> simp_all [List.cons.injEq]

theorem subAnn_false_head (l : List Char)
    (h : (subAnn false l).head? = some '>') : l.head? = some '>' := by
  cases l with
  | nil => simp [subAnn] at h
  | cons c rest =>
    match rest with
    | '>' :: rest2 =>
      by_cases hc : c = '>'
      · subst hc; rfl
      · rw [subAnn_cons_gt false c rest2 (by simp) hc] at h
        simp only [List.head?_cons, Option.some.injEq] at h
        exact absurd h hc
    | [] =>
      rw [subAnn_single false c (by simp)] at h
      simp only [List.head?_cons, Option.some.injEq] at h
      simp [h]
    | d :: rest2 =>
      by_cases hd : d = '>'
      · subst hd
        by_cases hc : c = '>'
        · subst hc; rfl
        · rw [subAnn_cons_gt false c rest2 (by simp) hc] at h
          simp only [List.head?_cons, Option.some.injEq] at h
          exact absurd h hc
      · rw [subAnn_cons_other false c d rest2 (by simp) hd] at h
        simp only [List.head?_cons, Option.some.injEq] at h
        simp [h]

theorem mem_subAnn (b : Bool) (l : List Char) (c : Char)
    (h : c ∈ subAnn b l) : c ∈ l := by
  induction b, l using subAnn.induct with
  | case1 b => simp [subAnn] at h
  | case2 skipping d rest hcond ih =>
    rw [subAnn_cons_space _ _ _ hcond] at h
    exact List.mem_cons_of_mem d (ih h)
  | case3 skipping rest2 hcond ih =>
    rw [subAnn_pair _ _ hcond] at h
    exact List.mem_cons_of_mem '>' (List.mem_cons_of_mem '>' (ih h))
  | case4 skipping d hcond rest2 hne ih =>
    rw [subAnn_cons_gt _ _ _ hcond hne] at h
    rcases List.mem_cons.mp h with rfl | h
    · exact List.mem_cons_self _ _
    · exact List.mem_cons_of_mem d (ih h)
  | case5 skipping d hcond =>
    rw [subAnn_single _ _ hcond] at h
    simp only [List.mem_cons, List.not_mem_nil, or_false] at h
    simp [h]
  | case6 skipping c0 h1 d rest2 h2 ih =>
    rw [subAnn_cons_other _ _ _ _ h1 (fun he => h2 he)] at h
    rcases List.mem_cons.mp h with rfl | h
    · exact List.mem_cons_self _ _
    · exact List.mem_cons_of_mem c0 (ih h)

theorem not_starts_gtgt (c : Char) (t : List Char)
    (h : c ≠ '>' ∨ t.head? ≠ some '>') :
    startsWithSeq (c :: t) gtgtMark = false := by
  rw [Bool.eq_false_iff]
  intro hs
  obtain ⟨s, hs⟩ := (startsWithSeq_iff _ _).mp hs
  simp only [gtgtMark, List.cons_append, List.nil_append, List.cons.injEq] at hs
  obtain ⟨rfl, rfl⟩ := hs
  rcases h with h | h
  · exact h rfl
  · exact h rfl

theorem subAnn_gtgt_free (b : Bool) (l : List Char) :
    containsSeq (subAnn b l) gtgtMark = false := by
  induction b, l using subAnn.induct with
  | case1 b =>
    have h0 : subAnn b [] = [] := by cases b <;> rfl
    rw [h0]; decide
  | case2 skipping c rest hcond ih => rw [subAnn_cons_space _ _ _ hcond]; exact ih
  | case3 skipping rest2 hcond ih => rw [subAnn_pair _ _ hcond]; exact ih
  | case4 skipping c hcond rest2 hne ih =>
    rw [subAnn_cons_gt _ _ _ hcond hne, containsSeq_cons,
      not_starts_gtgt c _ (Or.inl hne), ih]
    rfl
  | case5 skipping c hcond =>
    rw [subAnn_single _ _ hcond, containsSeq_cons,
      not_starts_gtgt c _ (Or.inr (by simp))]
    decide
  | case6 skipping c h1 d rest2 h2 ih =>
    rw [subAnn_cons_other _ _ _ _ h1 (fun he => h2 he), containsSeq_cons, ih]
    have hh : (subAnn false (d :: rest2)).head? ≠ some '>' := by
      intro hcontra
      have := subAnn_false_head _ hcontra
      simp only [List.head?_cons, Option.some.injEq] at this
      exact h2 this
    rw [not_starts_gtgt c _ (Or.inr hh)]
    rfl

theorem subAnn_id_of_free (l : List Char)
    (h : containsSeq l gtgtMark = false) : subAnn false l = l := by
  induction l with
  | nil => rfl
  | cons c t ih =>
    rw [containsSeq_cons, Bool.or_eq_false_iff] at h
    obtain ⟨hsw, hct⟩ := h
    have hnot : ¬(c = '>' ∧ t.head? = some '>') := by
      rintro ⟨rfl, hh⟩
      cases t with
      | nil => simp at hh
      | cons d t' =>
        simp only [List.head?_cons, Option.some.injEq] at hh
        subst hh
        rw [show startsWithSeq ('>' :: '>' :: t') gtgtMark = true from by
          simp [startsWithSeq, gtgtMark]] at hsw
        exact absurd hsw (by simp)
    cases t with
    | nil => exact subAnn_single false c (by simp)
    | cons d t' =>
      by_cases hd : d = '>'
      · subst hd
        have hc : ¬c = '>' := fun hc => hnot ⟨hc, rfl⟩
        rw [subAnn_cons_gt false c t' (by simp) hc, ih hct]
      · rw [subAnn_cons_other false c d t' (by simp) hd, ih hct]

/-! ## splitNl / joinNl lemmas -/

theorem splitNl_ne_nil (l : List Char) : splitNl l ≠ [] := by
  induction l with
  | nil => simp [splitNl]
  | cons c rest ih =>
    rw [splitNl.eq_def]
    by_cases hc : c = '\n'
    · simp [hc]
    · simp only [hc, if_false]
      cases hs : splitNl rest with
      | nil => simp
      | cons m ms => simp

theorem mem_splitNl_no_nl (l : List Char) (m : List Char)
    (h : m ∈ splitNl l) : '\n' ∉ m := by
  induction l generalizing m with
  | nil =>
    simp only [splitNl, List.mem_singleton] at h
    simp [h]
  | cons c rest ih =>
    rw [splitNl.eq_def] at h
    by_cases hc : c = '\n'
    · simp only [hc, if_true, List.mem_cons] at h
      rcases h with rfl | h
      · simp
      · exact ih m h
    · simp only [hc, if_false] at h
      cases hs : splitNl rest with
      | nil => exact absurd hs (splitNl_ne_nil rest)
      | cons m0 ms =>
        rw [hs] at h
        rcases List.mem_cons.mp h with rfl | h
        · intro hmem
          rcases List.mem_cons.mp hmem with he | hmem
          · exact hc he.symm
          · exact ih m0 (hs ▸ List.mem_cons_self m0 ms) hmem
        · exact ih m (hs ▸ List.mem_cons_of_mem m0 h)

theorem splitNl_no_nl (l : List Char) (h : '\n' ∉ l) : splitNl l = [l] := by
  induction l with
  | nil => rfl
  | cons c rest ih =>
    rw [splitNl.eq_def]
    have hc : ¬c = '\n' := fun he => h (he ▸ List.mem_cons_self c rest)
    simp only [hc, if_false]
    rw [ih (fun hm => h (List.mem_cons_of_mem c hm))]

theorem splitNl_append_nl (l y : List Char) (h : '\n' ∉ l) :
    splitNl (l ++ '\n' :: y) = l :: splitNl y := by
  induction l with
  | nil => simp [splitNl]
  | cons c l' ih =>
    have hc : ¬c = '\n' := fun he => h (he ▸ List.mem_cons_self c l')
    rw [List.cons_append, splitNl.eq_def]
    simp only [hc, if_false]
    rw [ih (fun hm => h (List.mem_cons_of_mem c hm))]

theorem splitNl_joinNl (L : List (List Char)) (hne : L ≠ [])
    (h : ∀ m ∈ L, '\n' ∉ m) : splitNl (joinNl L) = L := by
  induction L with
  | nil => exact absurd rfl hne
  | cons l ls ih =>
    cases ls with
    | nil => exact splitNl_no_nl l (h l (List.mem_cons_self l []))
    | cons l2 ls2 =>
      rw [show joinNl (l :: l2 :: ls2) = l ++ '\n' :: joinNl (l2 :: ls2) from rfl]
      rw [splitNl_append_nl l _ (h l (List.mem_cons_self l _))]
      rw [ih (by simp) (fun m hm => h m (List.mem_cons_of_mem l hm))]

theorem joinNl_ne_nil (L : List (List Char)) (hne : L ≠ [])
    (h : ∀ m ∈ L, m ≠ []) : joinNl L ≠ [] := by
  cases L with
  | nil => exact absurd rfl hne
  | cons l ls =>
    cases ls with
    | nil => exact h l (List.mem_cons_self l [])
    | cons l2 ls2 =>
      rw [show joinNl (l :: l2 :: ls2) = l ++ '\n' :: joinNl (l2 :: ls2) from rfl]
      simp

theorem head?_joinNl (l : List Char) (ls : List (List Char)) (h : l ≠ []) :
    (joinNl (l :: ls)).head? = l.head? := by
  cases ls with
  | nil => rfl
  | cons l2 ls2 =>
    rw [show joinNl (l :: l2 :: ls2) = l ++ '\n' :: joinNl (l2 :: ls2) from rfl]
    cases l with
    | nil => exact absurd rfl h
    | cons c t => simp

theorem getLast?_joinNl (L : List (List Char)) (hne : L ≠ [])
    (h : ∀ m ∈ L, m ≠ []) :
    ∃ m ∈ L, (joinNl L).getLast? = m.getLast? := by
  induction L with
  | nil => exact absurd rfl hne
  | cons l ls ih =>
    cases ls with
    | nil => exact ⟨l, List.mem_cons_self l [], rfl⟩
    | cons l2 ls2 =>
      obtain ⟨m, hm, hl⟩ := ih (by simp)
        (fun m hm => h m (List.mem_cons_of_mem l hm))
      refine ⟨m, List.mem_cons_of_mem l hm, ?_⟩
      rw [show joinNl (l :: l2 :: ls2) = l ++ '\n' :: joinNl (l2 :: ls2) from rfl]
      rw [List.getLast?_append]
      have hj : joinNl (l2 :: ls2) ≠ [] := joinNl_ne_nil _ (by simp)
        (fun m hm => h m (List.mem_cons_of_mem l hm))
      cases hg : (joinNl (l2 :: ls2)).getLast? with
      | none => exact absurd (List.getLast?_eq_none_iff.mp hg) hj
      | some x =>
        rw [← hl, hg]
        have : ('\n' :: joinNl (l2 :: ls2)).getLast? = some x := by
          cases hj2 : joinNl (l2 :: ls2) with
          | nil => exact absurd hj2 hj
          | cons y ys => rw [List.getLast?_cons_cons, ← hj2, hg]
        rw [this]
        rfl

/-! ## parseVttLines lemmas -/

theorem pyStrip_joinNl (L : List (List Char))
    (h : ∀ m ∈ L, m ≠ [] ∧ pyStrip m = m) :
    pyStrip (joinNl L) = joinNl L := by
  cases L with
  | nil => rfl
  | cons l ls =>
    apply pyStrip_fixed
    · intro c hc
      rw [head?_joinNl l ls (h l (List.mem_cons_self l ls)).1] at hc
      exact pyStrip_head l c
        (by rw [(h l (List.mem_cons_self l ls)).2]; exact hc)
    · intro c hc
      obtain ⟨m, hm, hl⟩ := getLast?_joinNl (l :: ls) (by simp)
        (fun m hm => (h m hm).1)
      rw [hl] at hc
      exact pyStrip_last m c (by rw [(h m hm).2]; exact hc)

theorem cleanLine_gtgt_free (line : List Char) :
    containsSeq (cleanLine line) gtgtMark = false := by
  unfold cleanLine
  rw [Bool.eq_false_iff]
  intro hcontra
  obtain ⟨u, v, hd⟩ := pyStrip_decomp (subAnn false line)
  have : containsSeq (subAnn false line) gtgtMark = true := by
    rw [hd]; exact containsSeq_of_middle u _ v _ hcontra
  rw [subAnn_gtgt_free false line] at this
  exact Bool.false_ne_true this

theorem cleanLine_idem (line : List Char) :
    cleanLine (cleanLine line) = cleanLine line := by
  show pyStrip (subAnn false (cleanLine line)) = cleanLine line
  rw [subAnn_id_of_free _ (cleanLine_gtgt_free line)]
  exact pyStrip_idem _

theorem mem_cleanLine (line : List Char) (c : Char)
    (h : c ∈ cleanLine line) : c ∈ line :=
  mem_subAnn false line c (mem_pyStrip _ c h)

theorem parseVttLines_cons (line : List Char) (rest seen : List (List Char)) :
    parseVttLines (line :: rest) seen =
      if discardLine line then parseVttLines rest seen
      else
        if !(cleanLine line).isEmpty && !seen.contains (cleanLine line) then
          cleanLine line :: parseVttLines rest (cleanLine line :: seen)
        else parseVttLines rest seen := rfl

theorem mem_parseVttLines (lines seen : List (List Char)) (x : List Char)
    (h : x ∈ parseVttLines lines seen) :
    ∃ line ∈ lines, x = cleanLine line ∧ x ≠ [] := by
  induction lines generalizing seen with
  | nil => simp [parseVttLines] at h
  | cons line rest ih =>
    rw [parseVttLines_cons] at h
    by_cases hd : discardLine line = true
    · rw [if_pos hd] at h
      obtain ⟨l0, hl0, hx⟩ := ih seen h
      exact ⟨l0, List.mem_cons_of_mem line hl0, hx⟩
    · rw [if_neg hd] at h
      by_cases hg : (!(cleanLine line).isEmpty && !seen.contains (cleanLine line)) = true
      · rw [if_pos hg] at h
        rcases List.mem_cons.mp h with rfl | h
        · refine ⟨line, List.mem_cons_self line rest, rfl, ?_⟩
          have h1 := (Bool.and_eq_true _ _).mp hg
          simpa using h1.1
        · obtain ⟨l0, hl0, hx⟩ := ih _ h
          exact ⟨l0, List.mem_cons_of_mem line hl0, hx⟩
      · rw [if_neg hg] at h
        obtain ⟨l0, hl0, hx⟩ := ih seen h
        exact ⟨l0, List.mem_cons_of_mem line hl0, hx⟩

theorem not_mem_of_contains_false (seen : List (List Char)) (c : List Char)
    (h : seen.contains c = false) : c ∉ seen := by
  intro hmem
  simp [List.contains, hmem] at h

theorem contains_false_of_not_mem (seen : List (List Char)) (c : List Char)
    (h : c ∉ seen) : seen.contains c = false := by
  simp [List.contains, h]

theorem parseVttLines_nodup (lines : List (List Char)) :
    ∀ seen, (∀ x ∈ parseVttLines lines seen, x ∉ seen) ∧
      (parseVttLines lines seen).Nodup := by
  induction lines with
  | nil => intro seen; constructor <;> simp [parseVttLines]
  | cons line rest ih =>
    intro seen
    rw [parseVttLines_cons]
    by_cases hd : discardLine line = true
    · rw [if_pos hd]; exact ih seen
    · rw [if_neg hd]
      by_cases hg : (!(cleanLine line).isEmpty &&
          !seen.contains (cleanLine line)) = true
      · rw [if_pos hg]
        have hc : cleanLine line ∉ seen := by
          have h2 := ((Bool.and_eq_true _ _).mp hg).2
          exact not_mem_of_contains_false seen _ (by simpa using h2)
        constructor
        · intro x hx
          rcases List.mem_cons.mp hx with rfl | hx
          · exact hc
          · intro hmem
            exact (ih (cleanLine line :: seen)).1 x hx
              (List.mem_cons_of_mem _ hmem)
        · rw [List.nodup_cons]
          refine ⟨fun hmem => ?_, (ih (cleanLine line :: seen)).2⟩
          exact (ih (cleanLine line :: seen)).1 _ hmem (List.mem_cons_self _ _)
      · rw [if_neg hg]; exact ih seen

theorem specDedupKeepFirst_cons (x : List Char) (xs : List (List Char)) :
    specDedupKeepFirst (x :: xs) =
      x :: specDedupKeepFirst (xs.filter (fun y => y != x)) := by
  rw [specDedupKeepFirst]

theorem keptCleanLines_cons (line : List Char) (rest : List (List Char)) :
    keptCleanLines (line :: rest) =
      if discardLine line then keptCleanLines rest
      else
        if (cleanLine line).isEmpty then keptCleanLines rest
        else cleanLine line :: keptCleanLines rest := by
  unfold keptCleanLines
  by_cases hd : discardLine line = true
  · simp [hd, List.filter_cons]
  · by_cases he : (cleanLine line).isEmpty = true
    · simp [hd, he, List.filter_cons]
    · simp [hd, he, List.filter_cons]

theorem parseVttLines_eq_spec (lines : List (List Char)) :
    ∀ seen, parseVttLines lines seen =
      specDedupKeepFirst
        ((keptCleanLines lines).filter (fun c => !seen.contains c)) := by
  induction lines with
  | nil => intro seen; simp [parseVttLines, keptCleanLines, specDedupKeepFirst]
  | cons line rest ih =>
    intro seen
    rw [parseVttLines_cons, keptCleanLines_cons]
    by_cases hd : discardLine line = true
    · rw [if_pos hd, if_pos hd]; exact ih seen
    · rw [if_neg hd, if_neg hd]
      by_cases he : (cleanLine line).isEmpty = true
      · rw [if_pos he]
        have hg : (!(cleanLine line).isEmpty &&
            !seen.contains (cleanLine line)) = false := by
          rw [he]; rfl
        rw [hg, if_neg (by simp)]
        exact ih seen
      · rw [if_neg he]
        by_cases hs : seen.contains (cleanLine line) = true
        · have hg : (!(cleanLine line).isEmpty &&
              !seen.contains (cleanLine line)) = false := by
            rw [hs]; simp
          rw [hg, if_neg (by simp), List.filter_cons]
          have : (!seen.contains (cleanLine line)) = false := by rw [hs]; rfl
          rw [this, if_neg (by simp)]
          exact ih seen
        · rw [Bool.not_eq_true] at hs
          have hg : (!(cleanLine line).isEmpty &&
              !seen.contains (cleanLine line)) = true := by
            rw [hs, Bool.not_eq_true (b := (cleanLine line).isEmpty)] at *
            simp [he, hs]
          rw [hg, if_pos rfl, List.filter_cons]
          have hkeep : (!seen.contains (cleanLine line)) = true := by
            rw [hs]; rfl
          rw [hkeep, if_pos rfl, specDedupKeepFirst_cons]
          congr 1
          rw [ih (cleanLine line :: seen)]
          congr 1
          rw [List.filter_filter]
          apply List.filter_congr
          intro y _
          simp only [List.contains_cons, bne, Bool.not_or]

theorem parseVttLines_id (L : List (List Char)) :
    ∀ seen, (∀ l ∈ L, discardLine l = false ∧ cleanLine l = l ∧ l ∉ seen) →
      L.Nodup → parseVttLines L seen = L := by
  induction L with
  | nil => intro seen _ _; rfl
  | cons l rest ih =>
    intro seen h hnd
    obtain ⟨hd, hcl, hns⟩ := h l (List.mem_cons_self l rest)
    have hne : l ≠ [] := by
      intro h0
      rw [h0] at hd
      exact absurd hd (by decide)
    rw [parseVttLines_cons, if_neg (by rw [hd]; simp), hcl]
    have hg : (!l.isEmpty && !seen.contains l) = true := by
      rw [contains_false_of_not_mem seen l hns]
      cases l with
      | nil => exact absurd rfl hne
      | cons a b => rfl
    rw [if_pos hg]
    congr 1
    rw [List.nodup_cons] at hnd
    apply ih (l :: seen) _ hnd.2
    intro m hm
    obtain ⟨h1, h2, h3⟩ := h m (List.mem_cons_of_mem l hm)
    refine ⟨h1, h2, ?_⟩
    intro hmem
    rcases List.mem_cons.mp hmem with rfl | hmem
    · exact hnd.1 hm
    · exact h3 hmem

theorem strip_empty_iff (line : List Char) :
    (pyStrip line).isEmpty = true ↔ ∀ c ∈ line, pyIsSpace c = true := by
  rw [List.isEmpty_eq_true]
  exact pyStrip_eq_nil_iff line

theorem digit_iff (line : List Char) :
    pyIsDigitStr (pyStrip line) = true ↔
      (pyStrip line ≠ [] ∧ ∀ c ∈ pyStrip line, c.isDigit = true) := by
  simp [pyIsDigitStr]

/-! ## Capture-slot helper lemmas -/

theorem handle_response_some (v : Except (List Char) (List Char))
    (r : Resp) : handle_response (some v) r = some v := by
  simp [handle_response]

theorem runResponses_some (rs : List Resp)
    (v : Except (List Char) (List Char)) :
    runResponses (some v) rs = some v := by
  induction rs with
  | nil => rfl
  | cons r rs ih =>
    simp only [runResponses, List.foldl_cons, handle_response_some]
    exact ih

/-! ## Trace helper lemmas -/

theorem processUrlEvents_unknown (env : Env) (url : List Char)
    (h : dispatch url = Platform.unknown) :
    processUrlEvents env url =
      [Ev.launchBrowser, Ev.newPage, Ev.registerListener] ++
        (if !env.gotoOk then [Ev.navigate]
         else [Ev.navigate, Ev.unknownPlatformMessage, Ev.closeBrowser]) ++
        [Ev.closeBrowser] := by
  rw [processUrlEvents, h]
  by_cases hg : env.gotoOk = true <;> simp [hg]

theorem fetchTranscriptEvents_unknown (env : Env) (url : List Char)
    (h1 : containsSeq url granicusMark = false)
    (h2 : containsSeq url vimeoMark = false) :
    fetchTranscriptEvents env url =
      [Ev.launchBrowser, Ev.newPage, Ev.registerListener] ++
        (if !env.gotoOk then [Ev.navigate]
         else [Ev.navigate] ++ fetchWaitEvents env) ++
        [Ev.closeBrowser] := by
  rw [fetchTranscriptEvents, h1, h2]
  by_cases hg : env.gotoOk = true <;> simp [hg]

end TranscriptExtraction

namespace TranscriptExtraction

/-- C1: for every input, the lines output by the normalizer are pairwise
distinct, and they are exactly the first occurrences — in original
order — of the distinct cleaned lines of the lines surviving the discard
step (those whose cleaned form is non-empty; an empty cleaned line never
produces an output line). -/
theorem parse_vtt_dedup (s : String) :
    (outLines s).Nodup ∧
      outLines s = specDedupKeepFirst (keptCleanLines (splitNl (pyStrip s.data))) := by
  constructor
  · exact (parseVttLines_nodup (splitNl (pyStrip s.data)) []).2
  · show parseVttLines (splitNl (pyStrip s.data)) [] = _
    rw [parseVttLines_eq_spec]
    congr 1
    have : ∀ x ∈ keptCleanLines (splitNl (pyStrip s.data)),
        (!([] : List (List Char)).contains x) = true := by
      intro x _; rfl
    rw [List.filter_congr this, List.filter_true]

/-- C2: on the concrete WEBVTT scenario input, `parse_vtt` returns
exactly `"Hello world\nGoodbye"`, and on an input consisting only of
the header, blank lines, cue indices and timing lines (no cue text) it
returns the empty string. -/
theorem parse_vtt_scenario :
    parse_vtt "WEBVTT\n\n1\n00:00:01.000 --> 00:00:02.000\n>> Hello world\n\n2\n00:00:02.000 --> 00:00:03.000\nHello world\n\n3\n00:00:03.000 --> 00:00:04.000\nGoodbye\n"
        = "Hello world\nGoodbye" ∧
      parse_vtt "WEBVTT\n\n1\n00:00:01.000 --> 00:00:02.000\n\n2\n00:00:02.000 --> 00:00:03.000\n"
        = "" := by
  constructor <;> decide

/-- C3 counterexample: the line `"> Hello"` survives the discard step and
begins with a single `>`, which the claim says is stripped, yet cleaning
leaves it unchanged; and the interior marker of `"a >> b"`, which the
claim says is left unchanged, is removed. -/
theorem clean_leading_marker_cex :
    specCleanLeadingMarker ("> Hello").data = ("Hello").data ∧
      discardLine ("> Hello").data = false ∧
      cleanLine ("> Hello").data = ("> Hello").data ∧
      ("> Hello").data ≠ ("Hello").data ∧
      specCleanLeadingMarker ("a >> b").data = ("a >> b").data ∧
      cleanLine ("a >> b").data = ("a b").data ∧
      ("a b").data ≠ ("a >> b").data := by
  decide

/-- C3 (amended): the cleaning step deletes every occurrence of the
two-character marker `>>` together with the whitespace following it,
anywhere in the line — not only at the start — and then trims
surrounding whitespace; a line containing no `>>` (in particular one
beginning with a single `>`) is only trimmed, and no `>>` survives
cleaning. -/
theorem clean_removes_all_markers (l : List Char) :
    (containsSeq l gtgtMark = false → cleanLine l = pyStrip l) ∧
      containsSeq (cleanLine l) gtgtMark = false :=
  ⟨fun h => by rw [cleanLine, subAnn_id_of_free l h], cleanLine_gtgt_free l⟩

/-- C3 witness: the marker-free line `"> Hello"` is only trimmed by the
cleaning step. -/
theorem clean_removes_all_markers_witness :
    containsSeq ("> Hello").data gtgtMark = false ∧
      cleanLine ("> Hello").data = pyStrip ("> Hello").data :=
  ⟨by decide, (clean_removes_all_markers ("> Hello").data).1 (by decide)⟩

/-- C4 counterexample: `"see WEBVTT spec"` is not blank, is not the
header token itself, contains no `-->`, and is not numeric, so by the
claim it should be kept; the code discards it (the filter tests substring
containment of `WEBVTT`, not equality with the header token), and the
whole-pipeline output on it is empty. -/
theorem webvtt_substring_cex :
    ("see WEBVTT spec" : String) ≠ "WEBVTT" ∧
      (pyStrip ("see WEBVTT spec").data).isEmpty = false ∧
      containsSeq ("see WEBVTT spec").data arrowMark = false ∧
      pyIsDigitStr (pyStrip ("see WEBVTT spec").data) = false ∧
      discardLine ("see WEBVTT spec").data = true ∧
      parse_vtt "see WEBVTT spec" = "" := by
  decide

/-- C4 (amended): a line is discarded exactly when it is whitespace-only,
contains the header token `WEBVTT` as a substring (not only when it
equals it), contains the arrow marker `-->`, or trims to a non-empty
all-digit string; a surviving line is passed to cleaning and, when its
cleaned form is non-empty and not previously seen, enters the output. -/
theorem discard_characterization (line : List Char) :
    (discardLine line = true ↔
      ((∀ c ∈ line, pyIsSpace c = true) ∨
        containsSeq line webvttMark = true ∨
        containsSeq line arrowMark = true ∨
        (pyStrip line ≠ [] ∧ ∀ c ∈ pyStrip line, c.isDigit = true))) ∧
    (discardLine line = false → cleanLine line ≠ [] →
      ∀ rest, cleanLine line ∈ parseVttLines (line :: rest) []) := by
  constructor
  · rw [discardLine]
    simp only [Bool.or_eq_true, strip_empty_iff, digit_iff]
    tauto
  · intro hd hne rest
    rw [parseVttLines_cons, if_neg (by rw [hd]; simp)]
    have hg : (!(cleanLine line).isEmpty &&
        !([] : List (List Char)).contains (cleanLine line)) = true := by
      simp [hne]
    rw [if_pos hg]
    exact List.mem_cons_self _ _

/-- C4 witness: the surviving line `"Hello"` has a non-empty cleaned form
and appears in the output of the loop. -/
theorem discard_characterization_witness :
    discardLine ("Hello").data = false ∧
      cleanLine ("Hello").data ≠ [] ∧
      cleanLine ("Hello").data ∈ parseVttLines [("Hello").data] [] :=
  ⟨by decide, by decide,
    (discard_characterization ("Hello").data).2 (by decide) (by decide) []⟩

/-- C5 counterexample: the idempotence claim fails: `parse_vtt ">>5"`
outputs `"5"`, which is itself discarded as a cue index when the output
is normalized again. -/
theorem parse_vtt_not_idempotent_cex :
    parse_vtt ">>5" = "5" ∧
      parse_vtt (parse_vtt ">>5") = "" ∧
      parse_vtt (parse_vtt ">>5") ≠ parse_vtt ">>5" := by
  decide

/-- C5 (amended): the normalizer is idempotent on every input none of
whose output lines is reclassified as discardable (contains the header
token, contains the arrow marker, or is purely numeric after the
cleaning of the first pass); cleaning itself never has to be re-applied,
since output lines are already trimmed and marker-free. -/
theorem parse_vtt_cond_idem (s : String)
    (h : ∀ l ∈ outLines s, discardLine l = false) :
    parse_vtt (parse_vtt s) = parse_vtt s := by
  have inv : ∀ x ∈ outLines s,
      x ≠ [] ∧ cleanLine x = x ∧ pyStrip x = x ∧ '\n' ∉ x := by
    intro x hx
    obtain ⟨line, hline, rfl, hne⟩ := mem_parseVttLines _ _ x hx
    refine ⟨hne, cleanLine_idem line, pyStrip_idem _, ?_⟩
    intro hnl
    exact mem_splitNl_no_nl _ line hline (mem_cleanLine line '\n' hnl)
  have hnodup : (outLines s).Nodup :=
    (parseVttLines_nodup (splitNl (pyStrip s.data)) []).2
  have houter : outLines (parse_vtt s) = outLines s := by
    show parseVttLines (splitNl (pyStrip (parse_vtt s).data)) [] = outLines s
    have hdata : (parse_vtt s).data = joinNl (outLines s) := rfl
    rw [hdata]
    by_cases hL : outLines s = []
    · rw [hL]; decide
    · rw [pyStrip_joinNl _ (fun m hm => ⟨(inv m hm).1, (inv m hm).2.2.1⟩),
        splitNl_joinNl _ hL (fun m hm => (inv m hm).2.2.2)]
      exact parseVttLines_id _ []
        (fun m hm => ⟨h m hm, (inv m hm).2.1, by simp⟩) hnodup
  show String.mk (joinNl (outLines (parse_vtt s))) = parse_vtt s
  rw [houter]
  rfl

/-- C5 witness: `">> Hello world"` normalizes to a single line that is
not reclassified, and normalizing twice equals normalizing once. -/
theorem parse_vtt_cond_idem_witness :
    (∀ l ∈ outLines ">> Hello world", discardLine l = false) ∧
      parse_vtt (parse_vtt ">> Hello world") = parse_vtt ">> Hello world" :=
  ⟨by decide, parse_vtt_cond_idem ">> Hello world" (by decide)⟩

/-- C6 counterexample: in `fetch_transcript_for_url`, a URL containing
none of the known platform substrings is not rejected: its dispatcher has
no failing branch, and the trace still reaches the transcript capture
wait, which the claim says must not occur. -/
theorem unknown_platform_wait_cex :
    containsSeq ("https://example.com/unknownplatform/video").data granicusMark = false ∧
      containsSeq ("https://example.com/unknownplatform/video").data viebitMark = false ∧
      containsSeq ("https://example.com/unknownplatform/video").data vimeoMark = false ∧
      Ev.captureWait ∈
        fetchTranscriptEvents ⟨true, true, CapOutcome.timeout⟩
          ("https://example.com/unknownplatform/video").data := by
  decide

/-- C6 (amended): in `process_url`, a URL containing `granicus.com`
selects the Granicus handler, one containing `viebit.com` (and not
`granicus.com`) the Viebit handler, and a URL matching neither substring
triggers no handler, reaches no capture wait, and (when navigation
succeeds) produces the unknown-platform failure; in
`fetch_transcript_for_url` the dispatch branches are `granicus.com` and
`vimeo.com`, and a URL matching neither triggers no handler but falls
through to the capture wait without any failure. -/
theorem dispatcher_selection (url : List Char) (env : Env) :
    (containsSeq url granicusMark = true → dispatch url = Platform.granicus) ∧
      (containsSeq url granicusMark = false →
        containsSeq url viebitMark = true → dispatch url = Platform.viebit) ∧
      (dispatch url = Platform.unknown →
        Ev.granicusSequence ∉ processUrlEvents env url ∧
          Ev.viebitSequence ∉ processUrlEvents env url ∧
          Ev.captureWait ∉ processUrlEvents env url ∧
          (env.gotoOk = true →
            Ev.unknownPlatformMessage ∈ processUrlEvents env url)) ∧
      (containsSeq url granicusMark = false →
        containsSeq url vimeoMark = false →
        Ev.granicusSequence ∉ fetchTranscriptEvents env url ∧
          Ev.vimeoSequence ∉ fetchTranscriptEvents env url ∧
          (env.gotoOk = true →
            Ev.captureWait ∈ fetchTranscriptEvents env url)) := by
  refine ⟨?_, ?_, ?_, ?_⟩
  · intro h
    rw [dispatch, if_pos h]
  · intro h1 h2
    rw [dispatch, if_neg (by simp [h1]), if_pos h2]
  · intro hu
    rw [processUrlEvents_unknown env url hu]
    obtain ⟨go, ho, cap⟩ := env
    cases go <;> cases ho <;> cases cap <;>
      exact ⟨by decide, by decide, by decide, by decide⟩
  · intro h1 h2
    rw [fetchTranscriptEvents_unknown env url h1 h2]
    obtain ⟨go, ho, cap⟩ := env
    cases go <;> cases ho <;> cases cap <;>
      exact ⟨by decide, by decide, by decide⟩

/-- C6 witness: concrete dispatches and traces exercising each branch of
the dispatcher theorem. -/
theorem dispatcher_selection_witness :
    dispatch ("https://city.granicus.com/player").data = Platform.granicus ∧
      dispatch ("https://city.viebit.com/player").data = Platform.viebit ∧
      Ev.captureWait ∉
        processUrlEvents ⟨true, true, CapOutcome.success⟩
          ("https://example.org/nowhere").data ∧
      Ev.captureWait ∈
        fetchTranscriptEvents ⟨true, true, CapOutcome.success⟩
          ("https://example.org/nowhere").data :=
  ⟨(dispatcher_selection ("https://city.granicus.com/player").data
      ⟨true, true, CapOutcome.success⟩).1 (by decide),
    (dispatcher_selection ("https://city.viebit.com/player").data
      ⟨true, true, CapOutcome.success⟩).2.1 (by decide) (by decide),
    ((dispatcher_selection ("https://example.org/nowhere").data
      ⟨true, true, CapOutcome.success⟩).2.2.1 (by decide)).2.2.1,
    ((dispatcher_selection ("https://example.org/nowhere").data
      ⟨true, true, CapOutcome.success⟩).2.2.2 (by decide) (by decide)).2.2 rfl⟩

/-- C7: the capture slot is write-once.  Starting empty, after any
sequence of responses the slot holds exactly the body of the first
response whose URL matches the `.vtt` marker (and stays empty if none
matches); and once the slot holds any value — payload or failure — no
later response changes it. -/
theorem capture_slot_write_once :
    (∀ rs : List Resp,
        runResponses none rs = (rs.find? respMatches).map Resp.body) ∧
      (∀ (v : Except (List Char) (List Char)) (rs : List Resp),
        runResponses (some v) rs = some v) := by
  constructor
  · intro rs
    induction rs with
    | nil => rfl
    | cons r rs ih =>
      by_cases h : respMatches r
      · simp only [runResponses, List.foldl_cons, handle_response, h,
          Option.isNone_none, Bool.and_true, if_pos, List.find?_cons_of_pos _ h,
          Option.map_some', Bool.true_and, ite_true]
        exact runResponses_some rs r.body
      · simp only [runResponses, List.foldl_cons, handle_response, h,
          Bool.false_and, ite_false, List.find?_cons_of_neg _ h] at ih ⊢
        exact ih
  · exact fun v rs => runResponses_some rs v

/-- C8: on every exit path — capture success, navigation failure,
handler failure, capture timeout, or read failure — the trace of
processing one URL ends with closing the browser session, in both the
`process_url` and the `fetch_transcript_for_url` variant. -/
theorem session_always_closed (env : Env) (url : List Char) :
    (processUrlEvents env url).getLast? = some Ev.closeBrowser ∧
      (fetchTranscriptEvents env url).getLast? = some Ev.closeBrowser := by
  constructor <;>
    simp only [processUrlEvents, fetchTranscriptEvents, ← List.append_assoc,
      List.getLast?_concat]

/-- C9 counterexample: in the `fetch_transcript_for_url` variant the
navigation timeout is 3500 ms while the capture wait is 20 s, so the
navigation bound does not exceed the capture-wait bound; the claim's
"every variant" quantification fails. -/
theorem scraper_timeout_cex :
    scraperCaptureWaitSeconds * 1000 = 20000 ∧
      scraperGotoTimeoutMs = 3500 ∧
      ¬ scraperCaptureWaitSeconds * 1000 < scraperGotoTimeoutMs := by
  decide

/-- C9 (amended): in `process_url` the capture wait is 20 s and
navigation has a separate, strictly longer 45 s bound; in
`fetch_transcript_for_url` the capture wait is also 20 s but navigation
uses a 3500 ms bound, strictly below the capture-wait bound. -/
theorem timeout_bounds :
    transcriptsCaptureWaitSeconds * 1000 = 20000 ∧
      transcriptsGotoTimeoutMs = 45000 ∧
      transcriptsCaptureWaitSeconds * 1000 < transcriptsGotoTimeoutMs ∧
      scraperCaptureWaitSeconds * 1000 = 20000 ∧
      scraperGotoTimeoutMs = 3500 ∧
      scraperGotoTimeoutMs < scraperCaptureWaitSeconds * 1000 := by
  decide

/-- C10: every output line of the normalizer is non-empty, equal to its
own whitespace-trim, and contains no occurrence of the two-character
marker `>>` (hence the joined output never starts or ends with a newline
and has no empty line between separators). -/
theorem parse_vtt_output_invariants (s : String) (l : List Char)
    (h : l ∈ outLines s) :
    l ≠ [] ∧ pyStrip l = l ∧ containsSeq l gtgtMark = false := by
  obtain ⟨line, hline, rfl, hne⟩ := mem_parseVttLines _ _ l h
  exact ⟨hne, pyStrip_idem _, cleanLine_gtgt_free line⟩

/-- C10 witness: the single output line of input `"Hi"` satisfies the
output invariants. -/
theorem parse_vtt_output_invariants_witness :
    (['H', 'i'] ∈ outLines "Hi") ∧
      (['H', 'i'] ≠ [] ∧ pyStrip ['H', 'i'] = ['H', 'i'] ∧
        containsSeq ['H', 'i'] gtgtMark = false) :=
  ⟨by decide, parse_vtt_output_invariants "Hi" ['H', 'i'] (by decide)⟩

end TranscriptExtraction
